import Mathlib

/-!
# Verification of the tiptoe-rs retrieval pipeline

A shallow embedding of the tiptoe-rs source (string codec, embedding
quantisation, client selection, request parsing, server refresh, and
database construction) together with proofs and refutations of the
specification's claims.

Strings are modelled as their UTF-8 byte sequences (`List ℕ`, each
element a byte), matching Rust's `String`/`&str` representation; `u64`
cells are modelled as `ℕ` with explicit bounds where overflow matters.
-/

namespace Tiptoe

/-! ## String codec (`src/encoding.rs`) -/

/-- Continuation byte test (`0x80..=0xBF`), used by the UTF-8 validator. -/
def isCont (c : ℕ) : Bool := decide (0x80 ≤ c ∧ c ≤ 0xBF)

/-- Validity of a byte sequence as UTF-8, modelling Rust's
`String::from_utf8` success condition (well-formed sequences, no
surrogates, no overlong forms, max scalar `U+10FFFF`). -/
def utf8Valid : List ℕ → Bool
  | [] => true
  | b :: rest =>
    if b ≤ 0x7F then utf8Valid rest
    else if 0xC2 ≤ b ∧ b ≤ 0xDF then
      match rest with
      | c1 :: rest1 => isCont c1 && utf8Valid rest1
      | [] => false
    else if b = 0xE0 then
      match rest with
      | c1 :: c2 :: rest2 => decide (0xA0 ≤ c1 ∧ c1 ≤ 0xBF) && isCont c2 && utf8Valid rest2
      | _ => false
    else if (0xE1 ≤ b ∧ b ≤ 0xEC) ∨ (0xEE ≤ b ∧ b ≤ 0xEF) then
      match rest with
      | c1 :: c2 :: rest2 => isCont c1 && isCont c2 && utf8Valid rest2
      | _ => false
    else if b = 0xED then
      match rest with
      | c1 :: c2 :: rest2 => decide (0x80 ≤ c1 ∧ c1 ≤ 0x9F) && isCont c2 && utf8Valid rest2
      | _ => false
    else if b = 0xF0 then
      match rest with
      | c1 :: c2 :: c3 :: rest3 =>
        decide (0x90 ≤ c1 ∧ c1 ≤ 0xBF) && isCont c2 && isCont c3 && utf8Valid rest3
      | _ => false
    else if 0xF1 ≤ b ∧ b ≤ 0xF3 then
      match rest with
      | c1 :: c2 :: c3 :: rest3 => isCont c1 && isCont c2 && isCont c3 && utf8Valid rest3
      | _ => false
    else if b = 0xF4 then
      match rest with
      | c1 :: c2 :: c3 :: rest3 =>
        decide (0x80 ≤ c1 ∧ c1 ≤ 0x8F) && isCont c2 && isCont c3 && utf8Valid rest3
      | _ => false
    else false

/-- `bytes.chunks(8)` from `EncodedString::from`: full chunks of eight
bytes followed by a final chunk holding the remainder (nothing for the
empty list). -/
def toChunks8 : List ℕ → List (List ℕ)
  | [] => []
  | b0 :: b1 :: b2 :: b3 :: b4 :: b5 :: b6 :: b7 :: rest =>
    [b0, b1, b2, b3, b4, b5, b6, b7] :: toChunks8 rest
  | l => [l]

/-- The inner packing loop of `EncodedString::from`: `packed |= byte << (i*8)`
over a chunk, i.e. little-endian base-256 accumulation. -/
def pack : List ℕ → ℕ
  | [] => 0
  | b :: t => b + 256 * pack t

/-- `EncodedString::from(&str)` (src/encoding.rs:7-23): the byte length
followed by the packed 8-byte chunks. -/
def encodeStr (s : List ℕ) : List ℕ := s.length :: (toChunks8 s).map pack

/-- The inner unpacking loop of `String::from(EncodedString)`: the eight
little-endian bytes of one `u64` cell (`(packed >> (i*8)) & 0xFF`). -/
def unpackCell (p : ℕ) : List ℕ := (List.range 8).map (fun i => p / 256 ^ i % 256)

/-- `String::from(EncodedString)` (src/encoding.rs:25-47): read the length
prefix, unpack bytes from the remaining cells until `len` bytes are
collected, then run UTF-8 validation; on failure `unwrap_or_default()`
yields the empty string. -/
def decodeStr (cells : List ℕ) : List ℕ :=
  match cells with
  | [] => []
  | len :: packed =>
    let bytes := ((packed.map unpackCell).flatten).take len
    if utf8Valid bytes then bytes else []

/-! ## `StringMatrix` (src/encoding.rs:49-99) -/

/-- The square side chosen by `StringMatrix::new`:
`strings.len().max(max encoded length)`, with `.max().unwrap_or(0)`
modelled by a `foldr max 0`. -/
def matrixSize (strings : List (List ℕ)) : ℕ :=
  max strings.length ((strings.map (fun s => (encodeStr s).length)).foldr max 0)

/-- The cell written at row `j`, column `i` by `StringMatrix::new`'s fill
loop: `matrix_data[j][i] = encoded[i][j]` when both indices are in range,
and the zero initialisation otherwise. -/
def cellAt (strings : List (List ℕ)) (j i : ℕ) : ℕ :=
  ((strings.map encodeStr).getD i []).getD j 0

/-- The `matrix_data` grid built by `StringMatrix::new`
(src/encoding.rs:54-76): an `N × N` row-major grid of `cellAt` values. -/
def stringMatrixData (strings : List (List ℕ)) : List (List ℕ) :=
  (List.range (matrixSize strings)).map
    (fun j => (List.range (matrixSize strings)).map (fun i => cellAt strings j i))

/-- `Vec<String>::from(StringMatrix)` (src/encoding.rs:78-99): for each of
the first `numStrings` columns, read the length prefix in row 0; when
positive, slice rows `0..=(len+7)/8`, project column `i`, and decode; a
zero prefix yields the empty string. -/
def vecFromMatrix (data : List (List ℕ)) (numStrings : ℕ) : List (List ℕ) :=
  (List.range numStrings).map (fun i =>
    let len := (data.getD 0 []).getD i 0
    if 0 < len then
      decodeStr ((data.take ((len + 7) / 8 + 1)).map (fun row => row.getD i 0))
    else [])

/-! ## Embedding codec (src/utils.rs) -/

/-- `SCALE_FACTOR` from src/utils.rs:10 (`1_00.0`). -/
def SCALE_FACTOR : ℚ := 100

/-- Rust's `f32::round`: round half away from zero.  The `f32`
arithmetic of the source is modelled exactly over `ℚ`. -/
def rustRound (q : ℚ) : ℤ := if 0 ≤ q then ⌊q + 1 / 2⌋ else -⌊-q + 1 / 2⌋

/-- Rust's saturating float-to-integer cast `as u64`: negative values
clamp to `0`, values above `u64::MAX` clamp to `2^64 - 1`. -/
def castU64 (x : ℤ) : ℕ := if x < 0 then 0 else min x.toNat (2 ^ 64 - 1)

/-- The cell at row `j`, column `i` written by
`strings_to_embedding_matrix` (src/utils.rs:26-35):
`matrix_data[j][i] = (val * SCALE_FACTOR).round() as u64` for in-range
coordinates, zero initialisation elsewhere.  `embeddings` is the list of
per-record embedder outputs (the embedder is opaque per the spec). -/
def embMatrixCell (embeddings : List (List ℚ)) (j i : ℕ) : ℕ :=
  if i < embeddings.length ∧ j < (embeddings.getD i []).length then
    castU64 (rustRound ((embeddings.getD i []).getD j 0 * SCALE_FACTOR))
  else 0

/-- `strings_to_embedding_matrix` (src/utils.rs:12-36): bails on an empty
input, otherwise builds the fixed `384 × 384` grid of quantised cells.
(The source would panic past 384 records or coordinates; claims stay in
range.) -/
def stringsToEmbeddingMatrix (embeddings : List (List ℚ)) : Option (List (List ℕ)) :=
  if embeddings.isEmpty then none
  else some ((List.range 384).map
    (fun j => (List.range 384).map (fun i => embMatrixCell embeddings j i)))

/-! ## Round-1 selection (src/client.rs:59-68, src/network.rs:308-317) -/

/-- The fold performed by Rust's `Iterator::max_by_key` over the
enumerated scores: the accumulator is kept only when its key is strictly
greater, so among equal maxima the last element wins. -/
def maxByStep (acc q : ℕ × ℤ) : ℕ × ℤ := if q.2 < acc.2 then acc else q

/-- The selection block of `Client::query`:
`result.iter().enumerate().max_by_key(|(_, val)| val).map(|(i, _)| i)`,
`none` modelling the `unwrap` panic on an empty vector. -/
def selectIdx (scores : List ℤ) : Option ℕ :=
  match scores.enum with
  | [] => none
  | p :: t => some (t.foldl maxByStep p).1

/-! ## Request parsing (src/network.rs:56-65) -/

/-- Numeric value of a run of decimal digit characters, most significant
first. -/
def digitsVal (s : List Char) : ℕ := s.foldl (fun acc c => 10 * acc + (c.toNat - '0'.toNat)) 0

/-- Parse an unsigned decimal digit run: at least one character, all
ASCII digits. -/
def parseDigits (s : List Char) : Option ℕ :=
  if s ≠ [] ∧ s.all Char.isDigit then some (digitsVal s) else none

/-- `str::parse::<BigInt>` (num-bigint `FromStr`): an optional sign
followed by one or more decimal digits. -/
def parseBigInt (s : List Char) : Option ℤ :=
  match s with
  | '+' :: rest => (parseDigits rest).map Int.ofNat
  | '-' :: rest => (parseDigits rest).map (fun n => -(n : ℤ))
  | _ => (parseDigits s).map Int.ofNat

/-- `deserialize_vector` (src/network.rs:60-65): parse every entry with
`.unwrap()`; `none` models the panic raised when any entry fails to
parse (the handler produces no 4xx response in that case). -/
def deserializeVector : List (List Char) → Option (List ℤ)
  | [] => some []
  | x :: t =>
    match parseBigInt x, deserializeVector t with
    | some b, some bs => some (b :: bs)
    | _, _ => none

/-! ## Server refresh (src/bin/server.rs) -/

/-- The published database bundle (`DatabaseState`,
src/bin/server.rs:23-29).  Matrices are row grids of `ℕ` cells, server
hints are `u64` seeds. -/
structure DatabaseState where
  embeddingDb : List (List ℕ)
  textDb : List (List ℕ)
  serverHints : ℕ × ℕ
  clientHints : List (List ℕ) × List (List ℕ)
deriving DecidableEq

/-- Outcomes of the fallible external steps inside `build_databases`
(embedder initialisation, embedding-matrix construction, the two
`Database::from_matrix` calls, and the compression self-test); the
`setup` results are carried as data.  These are inputs to the model
because they come from external crates (candle, simplepir). -/
structure BuildSteps where
  embedderInit : Option Unit
  embMatrix : Option (List (List ℕ))
  embDb : Option (List (List ℕ))
  txtDb : Option (List (List ℕ))
  compressOk : Bool
  setupEmb : ℕ × List (List ℕ)
  setupTxt : ℕ × List (List ℕ)
deriving DecidableEq

/-- `build_databases` (src/bin/server.rs:59-140): each failing step
returns `None` (after logging); only when every step succeeds is a new
`DatabaseState` assembled and returned. -/
def buildDatabases (st : BuildSteps) : Option DatabaseState :=
  match st.embedderInit with
  | none => none
  | some _ =>
    match st.embMatrix with
    | none => none
    | some _ =>
      match st.embDb with
      | none => none
      | some edb =>
        match st.txtDb with
        | none => none
        | some tdb =>
          if st.compressOk then
            some { embeddingDb := edb, textDb := tdb,
                   serverHints := (st.setupEmb.1, st.setupTxt.1),
                   clientHints := (st.setupEmb.2, st.setupTxt.2) }
          else none

/-- The shared application state (`AppState`, src/bin/server.rs:31-37);
price maps are association lists, the text fields byte strings. -/
structure AppState where
  lastUpdate : List ℕ
  stockPrices : List (List ℕ × ℚ)
  cryptoPrices : List (List ℕ × ℚ)
  dbState : Option DatabaseState
deriving DecidableEq

/-- The publication step of the spawned build task
(src/bin/server.rs:165-171): `if let Some(new_state) = build_databases(..)
{ *db_state = Some(new_state) }` — a single assignment performed only on
full success. -/
def applyBuildResult (app : AppState) (result : Option DatabaseState) : AppState :=
  match result with
  | some newState => { app with dbState := some newState }
  | none => app

/-- `update_market_data` (src/bin/server.rs:142-179): a failed market
fetch leaves the state untouched; a successful fetch installs the fresh
market fields and then publishes the build result via
`applyBuildResult`. -/
def updateMarketData (app : AppState)
    (fetch : Option (List (List ℕ × ℚ) × List (List ℕ × ℚ) × List ℕ))
    (st : BuildSteps) : AppState :=
  match fetch with
  | none => app
  | some (stocks, cryptos, ts) =>
    applyBuildResult
      { app with lastUpdate := ts, stockPrices := stocks, cryptoPrices := cryptos }
      (buildDatabases st)

/-! ## `adjust_embedding` (src/client.rs:36-48, src/network.rs:275-287) -/

/-- `Client::adjust_embedding`: compare the vector length with the target
`m`; equal lengths pass through, shorter vectors are zero-extended
(`DVector::zeros(m)` with the prefix copied in), longer vectors keep the
first `m` rows. -/
def adjustEmbedding (v : List ℤ) (m : ℕ) : List ℤ :=
  if v.length = m then v
  else if v.length < m then v ++ List.replicate (m - v.length) 0
  else v.take m

/-! ## `EmbeddingDatabase::build_from_strings` (src/database.rs:38-84) -/

/-- Ceiling square root, modelling `(total as f32).sqrt().ceil() as usize`
from src/database.rs:61 (operand sizes here keep the `f32` computation
exact on perfect squares; the claim settled against this model does not
depend on its value). -/
def natCeilSqrt (n : ℕ) : ℕ :=
  ((List.range (n + 1)).find? (fun k => n ≤ k * k)).getD n

/-- The per-coordinate quantisation of `build_from_strings`
(src/database.rs:55): `((x.abs() * (plain_mod - 1.0)) as u64) % plain_mod`,
the cast truncating toward zero. -/
def quantAbs (plainMod : ℕ) (x : ℚ) : ℕ :=
  (min ⌊|x| * (plainMod - 1 : ℚ)⌋.toNat (2 ^ 64 - 1)) % plainMod

/-- The state produced by a successful `build_from_strings`: side length,
the padded database vector, and the two hints produced by `setup`. -/
structure EmbDbState where
  dbSideLen : ℕ
  database : List ℕ
  serverHint : ℕ
  clientHint : List (List ℕ)
deriving DecidableEq

/-- `EmbeddingDatabase::build_from_strings` (src/database.rs:38-84):
embed **at most the first nine** texts (`texts.iter().take(9)`), failing
if any embedding fails (`none`, also covering the `embeddings[0]` panic
on an empty take), quantise and concatenate the coordinates, pad to a
square of side `⌈√total⌉`, and run `setup` (abstracted as the function
argument `setupF`, since it lives in the external simplepir crate and
samples its own seed). -/
def buildFromStrings (embed : List ℕ → Option (List ℚ))
    (setupF : List ℕ → ℕ × List (List ℕ)) (plainMod : ℕ)
    (texts : List (List ℕ)) : Option EmbDbState :=
  match (texts.take 9).mapM embed with
  | none => none
  | some embeddings =>
    match embeddings with
    | [] => none
    | _ :: _ =>
      let data := (embeddings.map (fun emb => emb.map (quantAbs plainMod))).flatten
      let total := data.length
      let side := natCeilSqrt total
      let padded := data ++ List.replicate (side * side - total) 0
      let (sh, ch) := setupF padded
      some { dbSideLen := side, database := padded, serverHint := sh, clientHint := ch }

/-! ## Helper lemmas: byte packing -/

/-- Little-endian base-256 digit extraction undoes `pack`. -/
lemma pack_div_mod (c : List ℕ) (hb : ∀ b ∈ c, b < 256) (i : ℕ) :
    pack c / 256 ^ i % 256 = c.getD i 0 := by
  induction c generalizing i with
  | nil => simp [pack]
  | cons b t ih =>
    have hblt : b < 256 := hb b (by simp)
    have hbt : ∀ x ∈ t, x < 256 := fun x hx => hb x (by simp [hx])
    cases i with
    | zero =>
      simp only [pack, pow_zero, Nat.div_one, List.getD_cons_zero]
      omega
    | succ i =>
      have hstep : (b + 256 * pack t) / 256 ^ (i + 1) = pack t / 256 ^ i := by
        rw [pow_succ, mul_comm (256 ^ i) 256, ← Nat.div_div_eq_div_mul]
        congr 1
        omega
      simp only [pack, hstep, List.getD_cons_succ]
      exact ih hbt i

/-- `pack` is bounded by `256 ^ length`. -/
lemma pack_lt (c : List ℕ) (hb : ∀ b ∈ c, b < 256) : pack c < 256 ^ c.length := by
  induction c with
  | nil => simp [pack]
  | cons b t ih =>
    have hblt : b < 256 := hb b (by simp)
    have := ih (fun x hx => hb x (by simp [hx]))
    simp only [pack, List.length_cons, pow_succ]
    calc b + 256 * pack t < 256 + 256 * pack t := by omega
      _ = 256 * (pack t + 1) := by ring
      _ ≤ 256 * 256 ^ t.length := by
          have : pack t + 1 ≤ 256 ^ t.length := this
          exact Nat.mul_le_mul_left 256 this
      _ = 256 ^ t.length * 256 := by ring

/-- Reading each list position through `getD` over an index range
reproduces the list. -/
lemma map_getD_range (l : List ℕ) : (List.range l.length).map (fun i => l.getD i 0) = l := by
  apply List.ext_getElem
  · simp
  · intro i h1 h2
    simp only [List.getElem_map, List.getElem_range]
    exact List.getD_eq_getElem l 0 h2

/-- Unpacking a packed chunk and truncating to its length recovers the
chunk. -/
lemma take_unpackCell_pack (c : List ℕ) (hb : ∀ b ∈ c, b < 256) (hc : c.length ≤ 8) :
    (unpackCell (pack c)).take c.length = c := by
  have hmap : unpackCell (pack c) = (List.range 8).map (fun i => c.getD i 0) := by
    unfold unpackCell
    exact List.map_congr_left (fun i _ => pack_div_mod c hb i)
  rw [hmap, ← List.map_take, List.take_range, Nat.min_eq_left hc, map_getD_range]

/-- The chunking function satisfies its take/drop unfolding on nonempty
input. -/
lemma toChunks8_eq (s : List ℕ) (h : s ≠ []) :
    toChunks8 s = s.take 8 :: toChunks8 (s.drop 8) := by
  match s with
  | [] => exact absurd rfl h
  | [b0] => rfl
  | [b0, b1] => rfl
  | [b0, b1, b2] => rfl
  | [b0, b1, b2, b3] => rfl
  | [b0, b1, b2, b3, b4] => rfl
  | [b0, b1, b2, b3, b4, b5] => rfl
  | [b0, b1, b2, b3, b4, b5, b6] => rfl
  | b0 :: b1 :: b2 :: b3 :: b4 :: b5 :: b6 :: b7 :: rest => rfl

/-- Unpacking every packed chunk and truncating at the length prefix
recovers the original byte string. -/
lemma unpack_flatten_take (s : List ℕ) (hb : ∀ b ∈ s, b < 256) :
    ((((toChunks8 s).map pack).map unpackCell).flatten).take s.length = s := by
  have key : ∀ n (s : List ℕ), s.length ≤ n → (∀ b ∈ s, b < 256) →
      ((((toChunks8 s).map pack).map unpackCell).flatten).take s.length = s := by
    intro n
    induction n with
    | zero =>
      intro s hn _
      have : s = [] := List.eq_nil_of_length_eq_zero (by omega)
      subst this
      simp [toChunks8]
    | succ n ih =>
      intro s hn hb
      by_cases hnil : s = []
      · subst hnil; simp [toChunks8]
      · rw [toChunks8_eq s hnil]
        simp only [List.map_cons, List.flatten_cons]
        by_cases hle : s.length ≤ 8
        · have hdrop : s.drop 8 = [] := List.drop_eq_nil_of_le hle
          have htake : s.take 8 = s := List.take_of_length_le hle
          rw [hdrop, htake]
          simp only [toChunks8, List.map_nil, List.flatten_nil, List.append_nil]
          exact take_unpackCell_pack s hb hle
        · push_neg at hle
          have htlen : (s.take 8).length = 8 := by simp; omega
          have hufull : unpackCell (pack (s.take 8)) = s.take 8 := by
            have := take_unpackCell_pack (s.take 8)
              (fun b hbm => hb b (List.take_subset 8 s hbm)) (by omega)
            rwa [htlen, List.take_of_length_le (by simp [unpackCell])] at this
          rw [hufull, List.take_append_eq_append_take, htlen,
            List.take_of_length_le (by omega)]
          have hdlen : (s.drop 8).length = s.length - 8 := by simp
          have ihd := ih (s.drop 8) (by simp; omega)
            (fun b hbm => hb b (List.drop_subset 8 s hbm))
          rw [hdlen] at ihd
          rw [ihd, List.take_append_drop]
  exact key s.length s le_rfl hb

/-- **C1.** For every valid UTF-8 byte string `s`, decoding the encoding
of `s` returns `s` exactly: `String::from(EncodedString::from(s)) = s`
(src/encoding.rs:7-47).  Proved for all lengths, so in particular for
`|s| ≤ 8·(N−1)`. -/
theorem encode_decode_roundtrip (s : List ℕ) (hb : ∀ b ∈ s, b < 256)
    (hv : utf8Valid s = true) : decodeStr (encodeStr s) = s := by
  unfold encodeStr decodeStr
  simp only [List.map_map]
  have : (((toChunks8 s).map (unpackCell ∘ pack)).flatten).take s.length = s := by
    have := unpack_flatten_take s hb
    rwa [List.map_map] at this
  rw [this, hv]
  rfl

/-- Witness for C1 at the byte string `"Hi"` (`[72, 105]`). -/
theorem encode_decode_roundtrip_witness :
    (∀ b ∈ [72, 105], b < 256) ∧ utf8Valid [72, 105] = true ∧
      decodeStr (encodeStr [72, 105]) = [72, 105] :=
  ⟨by decide, by decide, encode_decode_roundtrip [72, 105] (by decide) (by decide)⟩

/-! ## Helper lemmas: `StringMatrix` -/

/-- The chunk count is `⌈length / 8⌉`. -/
lemma toChunks8_length (s : List ℕ) : (toChunks8 s).length = (s.length + 7) / 8 := by
  have key : ∀ n (s : List ℕ), s.length ≤ n → (toChunks8 s).length = (s.length + 7) / 8 := by
    intro n
    induction n with
    | zero =>
      intro s hn
      have : s = [] := List.eq_nil_of_length_eq_zero (by omega)
      subst this; rfl
    | succ n ih =>
      intro s hn
      by_cases hnil : s = []
      · subst hnil; rfl
      · rw [toChunks8_eq s hnil]
        have hpos : 0 < s.length := List.length_pos.mpr hnil
        by_cases hle : s.length ≤ 8
        · have : s.drop 8 = [] := List.drop_eq_nil_of_le hle
          rw [this]
          simp only [toChunks8, List.length_cons, List.length_nil]
          omega
        · have ihd := ih (s.drop 8) (by simp; omega)
          simp only [List.length_cons, ihd, List.length_drop]
          omega
  exact key s.length s le_rfl

/-- Encoded width: one length cell plus `⌈length / 8⌉` packed cells. -/
lemma encodeStr_length (s : List ℕ) : (encodeStr s).length = 1 + (s.length + 7) / 8 := by
  simp [encodeStr, toChunks8_length]
  omega

/-- Every member is bounded by the running maximum (`.max().unwrap_or(0)`
model). -/
lemma le_foldr_max (l : List ℕ) (a : ℕ) (h : a ∈ l) : a ≤ l.foldr max 0 := by
  induction l with
  | nil => cases h
  | cons x t ih =>
    rcases List.mem_cons.mp h with rfl | ht
    · exact le_max_left _ _
    · exact le_trans (ih ht) (le_max_right _ _)

/-- Pulling `1 + ·` out of a running maximum over a nonempty list. -/
lemma foldr_max_one_add (f : List ℕ → ℕ) (l : List (List ℕ)) (h : l ≠ []) :
    (l.map (fun x => 1 + f x)).foldr max 0 = 1 + (l.map f).foldr max 0 := by
  induction l with
  | nil => exact absurd rfl h
  | cons x t ih =>
    by_cases ht : t = []
    · subst ht; simp
    · simp only [List.map_cons, List.foldr_cons, ih ht]
      omega

/-- In-range cells of the fill loop are the encoded cells of the
corresponding record. -/
lemma cellAt_eq (strings : List (List ℕ)) (j i : ℕ) (hi : i < strings.length) :
    cellAt strings j i = (encodeStr strings[i]).getD j 0 := by
  unfold cellAt
  have hin : (strings.map encodeStr).getD i [] = encodeStr strings[i] := by
    rw [List.getD_eq_getElem _ _ (by simpa using hi), List.getElem_map]
  rw [hin]

/-- Row `j` of the matrix grid, for `j` in range. -/
lemma stringMatrixData_getD (strings : List (List ℕ)) (j : ℕ) (hj : j < matrixSize strings) :
    (stringMatrixData strings).getD j [] =
      (List.range (matrixSize strings)).map (fun i => cellAt strings j i) := by
  unfold stringMatrixData
  rw [List.getD_eq_getElem _ _ (by simpa using hj), List.getElem_map, List.getElem_range]

/-- **C2.** `StringMatrix::new` packs `R` strings into a square matrix of
side `N = max(R, 1 + max_r ⌈L_r/8⌉)` (src/encoding.rs:54-76), and
`Vec<String>::from` recovers the original list of `R` strings in order
(src/encoding.rs:78-99). -/
theorem stringMatrix_roundtrip (strings : List (List ℕ))
    (hb : ∀ s ∈ strings, ∀ b ∈ s, b < 256)
    (hv : ∀ s ∈ strings, utf8Valid s = true) :
    (strings ≠ [] → matrixSize strings =
      max strings.length (1 + ((strings.map (fun s => (s.length + 7) / 8)).foldr max 0))) ∧
    vecFromMatrix (stringMatrixData strings) strings.length = strings := by
  constructor
  · intro hne
    unfold matrixSize
    congr 1
    have : (strings.map (fun s => (encodeStr s).length)) =
        strings.map (fun s => 1 + (s.length + 7) / 8) :=
      List.map_congr_left (fun s _ => encodeStr_length s)
    rw [this, foldr_max_one_add (fun s => (s.length + 7) / 8) strings hne]
  · set N := matrixSize strings with hN
    have hRN : strings.length ≤ N := le_max_left _ _
    apply List.ext_getElem
    · simp [vecFromMatrix]
    · intro i h1 h2
      have hi : i < strings.length := h2
      have hiN : i < N := lt_of_lt_of_le hi hRN
      have hNpos : 0 < N := lt_of_le_of_lt (Nat.zero_le i) hiN
      have hEncLe : (encodeStr strings[i]).length ≤ N := by
        refine le_trans (le_foldr_max _ _ ?_) (le_max_right _ _)
        exact List.mem_map.mpr ⟨strings[i], List.getElem_mem h2, rfl⟩
      unfold vecFromMatrix
      rw [List.getElem_map, List.getElem_range]
      have hrow0 : ((stringMatrixData strings).getD 0 []).getD i 0 = strings[i].length := by
        rw [stringMatrixData_getD strings 0 hNpos,
          List.getD_eq_getElem _ _ (by simpa using hiN), List.getElem_map,
          List.getElem_range, cellAt_eq strings 0 i hi]
        rfl
      simp only [hrow0]
      by_cases hzero : strings[i].length = 0
      · rw [if_neg (by omega)]
        exact (List.eq_nil_of_length_eq_zero hzero).symm
      · rw [if_pos (by omega)]
        set ps := (strings[i].length + 7) / 8 with hps
        have hpsN : ps + 1 ≤ N := by
          have := encodeStr_length strings[i]
          omega
        have hcells : (List.take (ps + 1) (stringMatrixData strings)).map
            (fun row => row.getD i 0) = encodeStr strings[i] := by
          unfold stringMatrixData
          rw [← List.map_take, List.take_range, Nat.min_eq_left hpsN, List.map_map]
          have hstep : ∀ j ∈ List.range (ps + 1),
              ((fun row => row.getD i 0) ∘ fun j =>
                (List.range N).map fun i => cellAt strings j i) j =
              (encodeStr strings[i]).getD j 0 := by
            intro j hj
            simp only [Function.comp]
            rw [List.getD_eq_getElem _ _ (by simpa using hiN), List.getElem_map,
              List.getElem_range, cellAt_eq strings j i hi]
          rw [List.map_congr_left hstep]
          have hlen : ps + 1 = (encodeStr strings[i]).length := by
            rw [encodeStr_length]; omega
          rw [hlen, map_getD_range]
        rw [hcells]
        exact encode_decode_roundtrip strings[i]
          (hb strings[i] (List.getElem_mem h2)) (hv strings[i] (List.getElem_mem h2))

/-- Witness for C2 at the single-record list `["Hi"]`. -/
theorem stringMatrix_roundtrip_witness :
    ([[72, 105]] : List (List ℕ)) ≠ [] ∧
      matrixSize [[72, 105]] = max 1 (1 + (([[72, 105]] : List (List ℕ)).map
        (fun s => (s.length + 7) / 8)).foldr max 0) ∧
      vecFromMatrix (stringMatrixData [[72, 105]]) 1 = [[72, 105]] := by
  have h := stringMatrix_roundtrip [[72, 105]] (by decide) (by decide)
  exact ⟨by decide, h.1 (by decide), h.2⟩

/-! ## C3: cell magnitude -/

/-- Out-of-range `getD` yields the default. -/
lemma getD_eq_default_of_le {α : Type} (l : List α) (d : α) (i : ℕ) (h : l.length ≤ i) :
    l.getD i d = d := by
  simp [List.getD, List.getElem?_eq_none h]

/-- Chunks are at most eight bytes long and draw their bytes from the
source string. -/
lemma mem_toChunks8 (s c : List ℕ) (hc : c ∈ toChunks8 s) :
    c.length ≤ 8 ∧ ∀ b ∈ c, b ∈ s := by
  have key : ∀ n (s c : List ℕ), s.length ≤ n → c ∈ toChunks8 s →
      c.length ≤ 8 ∧ ∀ b ∈ c, b ∈ s := by
    intro n
    induction n with
    | zero =>
      intro s c hn hc
      have : s = [] := List.eq_nil_of_length_eq_zero (by omega)
      subst this
      simp [toChunks8] at hc
    | succ n ih =>
      intro s c hn hc
      by_cases hnil : s = []
      · subst hnil; simp [toChunks8] at hc
      · rw [toChunks8_eq s hnil] at hc
        rcases List.mem_cons.mp hc with rfl | htl
        · exact ⟨by simp, fun b hb => List.take_subset 8 s hb⟩
        · have hpos : 0 < s.length := List.length_pos.mpr hnil
          have := ih (s.drop 8) c (by simp; omega) htl
          exact ⟨this.1, fun b hb => List.drop_subset 8 s (this.2 b hb)⟩
  exact key s.length s c le_rfl hc

/-- Any cell of an encoded string is the length prefix or a packed chunk,
hence bounded by `2^64` when the byte length is. -/
lemma encodeStr_getD_lt (s : List ℕ) (hb : ∀ b ∈ s, b < 256)
    (hlen : s.length < 2 ^ 64) (j : ℕ) : (encodeStr s).getD j 0 < 2 ^ 64 := by
  match j with
  | 0 => simpa [encodeStr] using hlen
  | k + 1 =>
    show ((toChunks8 s).map pack).getD k 0 < 2 ^ 64
    by_cases hk : k < ((toChunks8 s).map pack).length
    · have hk2 : k < (toChunks8 s).length := by simpa using hk
      rw [List.getD_eq_getElem _ _ hk, List.getElem_map]
      have hmem : (toChunks8 s)[k] ∈ toChunks8 s := List.getElem_mem hk2
      obtain ⟨hlen8, hsub⟩ := mem_toChunks8 s _ hmem
      calc pack (toChunks8 s)[k]
          < 256 ^ ((toChunks8 s)[k]).length :=
            pack_lt _ (fun b hbm => hb b (hsub b hbm))
        _ ≤ 256 ^ 8 := Nat.pow_le_pow_right (by omega) hlen8
        _ ≤ 2 ^ 64 := by norm_num
    · rw [getD_eq_default_of_le _ _ _ (by omega)]
      positivity

/-- **C3 (counterexample).** The three-byte record `"aaa"` packs its
bytes into the single cell `97 + 97·256 + 97·65536 = 6381921`, which
exceeds `p − 1 = 2^17 − 1 = 131071`: the claim that every cell of
`StringMatrix::new` stays within the 17-bit plaintext budget is false. -/
theorem stringMatrix_cell_exceeds_plaintext :
    ((stringMatrixData [[97, 97, 97]]).getD 1 []).getD 0 0 = 6381921 ∧
      ¬ ((stringMatrixData [[97, 97, 97]]).getD 1 []).getD 0 0 ≤ 2 ^ 17 - 1 := by
  constructor
  · decide
  · decide

/-- **C3 (amended).** Every cell of the matrix produced by
`StringMatrix::new` is either a byte-length prefix or an 8-byte
little-endian packed value, so it is bounded by `2^64` (the `u64` range)
— but not by `p − 1 = 2^17 − 1`. -/
theorem stringMatrix_cell_lt_u64 (strings : List (List ℕ))
    (hb : ∀ s ∈ strings, ∀ b ∈ s, b < 256)
    (hlen : ∀ s ∈ strings, s.length < 2 ^ 64) (j i : ℕ) :
    ((stringMatrixData strings).getD j []).getD i 0 < 2 ^ 64 := by
  by_cases hj : j < matrixSize strings
  · rw [stringMatrixData_getD strings j hj]
    by_cases hi : i < matrixSize strings
    · rw [List.getD_eq_getElem _ _ (by simpa using hi), List.getElem_map,
        List.getElem_range]
      by_cases hiR : i < strings.length
      · rw [cellAt_eq strings j i hiR]
        exact encodeStr_getD_lt strings[i]
          (hb strings[i] (List.getElem_mem hiR))
          (hlen strings[i] (List.getElem_mem hiR)) j
      · unfold cellAt
        have hmaplen : (strings.map encodeStr).length ≤ i := by
          rw [List.length_map]; omega
        rw [getD_eq_default_of_le _ _ _ hmaplen]
        norm_num
    · rw [getD_eq_default_of_le _ _ _ (by simpa using hi)]
      positivity
  · have hrow : (stringMatrixData strings).getD j [] = [] := by
      apply getD_eq_default_of_le
      simp only [stringMatrixData, List.length_map, List.length_range]
      omega
    rw [hrow]
    norm_num [List.getD]

/-- Witness for the amended C3 at the record list `["aaa"]`, cell (1, 0). -/
theorem stringMatrix_cell_lt_u64_witness :
    (∀ s ∈ [[97, 97, 97]], ∀ b ∈ s, b < 256) ∧
      (∀ s ∈ ([[97, 97, 97]] : List (List ℕ)), s.length < 2 ^ 64) ∧
      ((stringMatrixData [[97, 97, 97]]).getD 1 []).getD 0 0 < 2 ^ 64 :=
  ⟨by decide, by norm_num,
    stringMatrix_cell_lt_u64 [[97, 97, 97]] (by decide) (by norm_num) 1 0⟩

/-! ## C4: embedding quantisation -/

/-- **C4 (counterexample).** For the embedding coordinate `v = −1` the
code stores `(−1 · 100).round() as u64 = 0` (the cast saturates negative
values to zero), whereas the claimed formula
`round(v · SCALE) mod p` with two's-complement reduction gives
`(−100) mod 2^17 = 130972 ≠ 0`. -/
theorem embMatrixCell_neg_counterexample :
    embMatrixCell [[-1]] 0 0 = 0 ∧
      (rustRound ((-1 : ℚ) * SCALE_FACTOR)).emod (2 ^ 17) = 130972 ∧
      embMatrixCell [[-1]] 0 0 ≠ 130972 := by
  refine ⟨?_, ?_, ?_⟩ <;>
    norm_num [embMatrixCell, castU64, rustRound, SCALE_FACTOR]

/-- **C4 (amended).** The cell at row `j`, column `i` of the matrix built
by `strings_to_embedding_matrix` equals `round(v_j · SCALE)` saturated
into `u64`: negative rounded values are clamped to `0` (no mod-`p`
reduction), and non-negative rounded values below `2^64` are stored
as-is (again with no mod-`p` reduction). -/
theorem embMatrixCell_spec (emb : List (List ℚ)) (j i : ℕ)
    (hi : i < emb.length) (hj : j < (emb.getD i []).length) :
    (∀ M, stringsToEmbeddingMatrix emb = some M → j < 384 → i < 384 →
      (M.getD j []).getD i 0 = embMatrixCell emb j i) ∧
    (rustRound ((emb.getD i []).getD j 0 * SCALE_FACTOR) < 0 →
      embMatrixCell emb j i = 0) ∧
    (∀ r : ℤ, r = rustRound ((emb.getD i []).getD j 0 * SCALE_FACTOR) →
      0 ≤ r → r < 2 ^ 64 → embMatrixCell emb j i = r.toNat) := by
  refine ⟨?_, ?_, ?_⟩
  · intro M hM hj384 hi384
    have hne : ¬ emb.isEmpty := by
      cases emb with
      | nil => simp at hi
      | cons a t => simp
    unfold stringsToEmbeddingMatrix at hM
    rw [if_neg hne] at hM
    have hM' := (Option.some_injective _ hM.symm : M = _)
    subst hM'
    have hrow : ((List.range 384).map
        (fun j => (List.range 384).map (fun i => embMatrixCell emb j i))).getD j [] =
        (List.range 384).map (fun i => embMatrixCell emb j i) := by
      rw [List.getD_eq_getElem _ _ (by simpa using hj384), List.getElem_map,
        List.getElem_range]
    rw [hrow, List.getD_eq_getElem _ _ (by simpa using hi384), List.getElem_map,
      List.getElem_range]
  · intro hneg
    unfold embMatrixCell
    rw [if_pos ⟨hi, hj⟩]
    unfold castU64
    rw [if_pos hneg]
  · intro r hr hr0 hrlt
    unfold embMatrixCell
    rw [if_pos ⟨hi, hj⟩]
    unfold castU64
    rw [if_neg (by omega), ← hr, Nat.min_eq_left (by omega)]

/-- Witness for the amended C4 at the single embedding `[−1]`. -/
theorem embMatrixCell_spec_witness :
    (0 : ℕ) < ([[-1]] : List (List ℚ)).length ∧
      (0 : ℕ) < (([[-1]] : List (List ℚ)).getD 0 []).length ∧
      rustRound ((([[-1]] : List (List ℚ)).getD 0 []).getD 0 0 * SCALE_FACTOR) < 0 ∧
      embMatrixCell [[-1]] 0 0 = 0 := by
  have h := embMatrixCell_spec [[-1]] 0 0 (by norm_num) (by norm_num)
  exact ⟨by norm_num, by norm_num,
    by norm_num [rustRound, SCALE_FACTOR],
    h.2.1 (by norm_num [rustRound, SCALE_FACTOR])⟩

/-! ## C5: round-1 selection -/

/-- Enumeration from `n` yields indices at least `n`. -/
lemma le_fst_of_mem_enumFrom (l : List ℤ) (n : ℕ) (q : ℕ × ℤ)
    (h : q ∈ l.enumFrom n) : n ≤ q.1 := by
  induction l generalizing n with
  | nil => cases h
  | cons x t ih =>
    rw [List.enumFrom_cons] at h
    rcases List.mem_cons.mp h with rfl | ht
    · exact le_rfl
    · exact le_trans (Nat.le_succ n) (ih (n + 1) ht)

/-- Enumerated indices are strictly increasing. -/
lemma pairwise_fst_enumFrom (l : List ℤ) (n : ℕ) :
    (l.enumFrom n).Pairwise (fun a b => a.1 < b.1) := by
  induction l generalizing n with
  | nil => exact List.Pairwise.nil
  | cons x t ih =>
    rw [List.enumFrom_cons]
    exact List.Pairwise.cons
      (fun q hq => lt_of_lt_of_le (Nat.lt_succ_self n) (le_fst_of_mem_enumFrom t (n + 1) q hq))
      (ih (n + 1))

/-- An enumerated pair records a position and the value stored there. -/
lemma mem_enumFrom_spec (l : List ℤ) (n : ℕ) (q : ℕ × ℤ)
    (h : q ∈ l.enumFrom n) :
    n ≤ q.1 ∧ q.1 - n < l.length ∧ l.getD (q.1 - n) 0 = q.2 := by
  induction l generalizing n with
  | nil => cases h
  | cons x t ih =>
    rw [List.enumFrom_cons] at h
    rcases List.mem_cons.mp h with rfl | ht
    · exact ⟨le_rfl, by simp, by simp⟩
    · obtain ⟨h1, h2, h3⟩ := ih (n + 1) ht
      refine ⟨le_trans (Nat.le_succ n) h1, by simp; omega, ?_⟩
      have : q.1 - n = (q.1 - (n + 1)) + 1 := by omega
      rw [this, List.getD_cons_succ, h3]

/-- Every position appears in the enumeration. -/
lemma getD_mem_enumFrom (l : List ℤ) (n k : ℕ) (hk : k < l.length) :
    (n + k, l.getD k 0) ∈ l.enumFrom n := by
  induction l generalizing n k with
  | nil => simp at hk
  | cons x t ih =>
    rw [List.enumFrom_cons]
    cases k with
    | zero => simp
    | succ k =>
      refine List.mem_cons.mpr (Or.inr ?_)
      have : n + (k + 1) = (n + 1) + k := by omega
      rw [this, List.getD_cons_succ]
      exact ih (n + 1) k (by simpa using hk)

/-- The `max_by_key` fold returns a member whose key dominates every
element, and among equal keys the largest index (the fold keeps the
accumulator only on strict decrease). -/
lemma foldl_maxBy_spec (t : List (ℕ × ℤ)) :
    ∀ p, ((p :: t).Pairwise fun a b => a.1 < b.1) →
      t.foldl maxByStep p ∈ p :: t ∧
      ∀ q ∈ p :: t, q.2 ≤ (t.foldl maxByStep p).2 ∧
        (q.2 = (t.foldl maxByStep p).2 → q.1 ≤ (t.foldl maxByStep p).1) := by
  induction t with
  | nil =>
    intro p _
    exact ⟨List.mem_singleton.mpr rfl, by
      intro q hq
      rw [List.mem_singleton.mp hq]
      exact ⟨le_rfl, fun _ => le_rfl⟩⟩
  | cons x t ih =>
    intro p hpw
    have hpx : p.1 < x.1 := (List.pairwise_cons.mp hpw).1 x (by simp)
    have hxw : ((maxByStep p x) :: t).Pairwise fun a b => a.1 < b.1 := by
      have hxt := (List.pairwise_cons.mp (List.pairwise_cons.mp hpw).2)
      refine List.pairwise_cons.mpr ⟨?_, hxt.2⟩
      intro q hq
      unfold maxByStep
      split
      · exact lt_trans hpx (hxt.1 q hq)
      · exact hxt.1 q hq
    obtain ⟨hmem, hdom⟩ := ih (maxByStep p x) hxw
    simp only [List.foldl_cons]
    constructor
    · rcases List.mem_cons.mp hmem with heq | hin
      · rw [heq]
        unfold maxByStep
        split
        · exact List.mem_cons_self p _
        · exact List.mem_cons.mpr (Or.inr (List.mem_cons_self x t))
      · exact List.mem_cons.mpr (Or.inr (List.mem_cons.mpr (Or.inr hin)))
    · intro q hq
      set r := t.foldl maxByStep (maxByStep p x) with hr
      have hhead := hdom (maxByStep p x) (List.mem_cons_self _ _)
      rcases List.mem_cons.mp hq with rfl | hq'
      · by_cases hlt : x.2 < q.2
        · have hstep : maxByStep q x = q := by unfold maxByStep; rw [if_pos hlt]
          rw [hstep] at hdom
          exact hdom q (List.mem_cons_self _ _)
        · have hstep : maxByStep q x = x := by unfold maxByStep; rw [if_neg hlt]
          rw [hstep] at hhead
          push_neg at hlt
          refine ⟨le_trans hlt hhead.1, fun hqr => ?_⟩
          have hxr : x.2 = r.2 := le_antisymm hhead.1 (by omega)
          exact le_trans (le_of_lt hpx) (hhead.2 hxr)
      · rcases List.mem_cons.mp hq' with rfl | hq''
        · by_cases hlt : q.2 < p.2
          · have hstep : maxByStep p q = p := by unfold maxByStep; rw [if_pos hlt]
            rw [hstep] at hhead
            refine ⟨le_trans (le_of_lt hlt) hhead.1, fun hqr => absurd hqr (by omega)⟩
          · have hstep : maxByStep p q = q := by unfold maxByStep; rw [if_neg hlt]
            rw [hstep] at hhead hdom
            exact hdom q (List.mem_cons_self _ _)
        · exact hdom q (List.mem_cons.mpr (Or.inr hq''))

/-- **C5 (counterexample).** On the tied score vector `[5, 5]` the code
selects index `1` (Rust's `max_by_key` returns the *last* maximal
element), not the claimed lowest index `0`. -/
theorem selectIdx_tie_counterexample :
    selectIdx [(5 : ℤ), 5] = some 1 ∧ (1 : ℕ) ≠ 0 := by
  constructor
  · decide
  · decide

/-- **C5 (amended).** The record index selected for the round-2 fetch is
an argmax of the recovered score vector, and when several entries share
the maximum the *highest* index among them is selected. -/
theorem selectIdx_spec (scores : List ℤ) (i : ℕ) (h : selectIdx scores = some i) :
    i < scores.length ∧
    (∀ k, k < scores.length → scores.getD k 0 ≤ scores.getD i 0) ∧
    (∀ k, k < scores.length → i < k → scores.getD k 0 < scores.getD i 0) := by
  unfold selectIdx at h
  cases henum : scores.enum with
  | nil => rw [henum] at h; cases h
  | cons p t =>
    rw [henum] at h
    have hi : i = (t.foldl maxByStep p).1 := (Option.some_injective _ h).symm
    have hpw : (p :: t).Pairwise fun a b => a.1 < b.1 := by
      rw [← henum, List.enum_eq_enumFrom]
      exact pairwise_fst_enumFrom scores 0
    obtain ⟨hmem, hdom⟩ := foldl_maxBy_spec t p hpw
    set r := t.foldl maxByStep p with hr
    have hrmem : r ∈ scores.enum := by rw [henum]; exact hmem
    have hrspec := mem_enumFrom_spec scores 0 r (by rwa [← List.enum_eq_enumFrom])
    have hrlen : r.1 < scores.length := by omega
    have hrval : scores.getD r.1 0 = r.2 := by simpa using hrspec.2.2
    subst hi
    refine ⟨hrlen, ?_, ?_⟩
    · intro k hk
      have hkmem : (k, scores.getD k 0) ∈ p :: t := by
        rw [← henum, List.enum_eq_enumFrom]
        simpa using getD_mem_enumFrom scores 0 k hk
      have := (hdom _ hkmem).1
      rw [hrval]
      exact this
    · intro k hk hik
      have hkmem : (k, scores.getD k 0) ∈ p :: t := by
        rw [← henum, List.enum_eq_enumFrom]
        simpa using getD_mem_enumFrom scores 0 k hk
      obtain ⟨hle, heq⟩ := hdom _ hkmem
      rcases lt_or_eq_of_le hle with hlt | hval
      · rw [hrval]
        exact hlt
      · exact absurd (heq hval) (by omega)

/-- Witness for the amended C5 on the score vector `[3, 7, 2]`. -/
theorem selectIdx_spec_witness :
    (1 : ℕ) < ([(3 : ℤ), 7, 2] : List ℤ).length ∧
      (∀ k, k < ([(3 : ℤ), 7, 2] : List ℤ).length →
        ([(3 : ℤ), 7, 2] : List ℤ).getD k 0 ≤ ([(3 : ℤ), 7, 2] : List ℤ).getD 1 0) := by
  have h := selectIdx_spec [(3 : ℤ), 7, 2] 1 (by decide)
  exact ⟨h.1, h.2.1⟩

/-! ## C6: decoding invalid UTF-8 -/

/-- **C6 (counterexample).** The encoded cells `[1, 255]` carry the
single byte `0xFF`, which is not valid UTF-8 — yet
`String::from(EncodedString)` returns the empty string
(`unwrap_or_default`), not a decode error; its return type `String`
cannot carry an error at all. -/
theorem decodeStr_invalid_utf8_counterexample :
    utf8Valid (((([255] : List ℕ).map unpackCell).flatten).take 1) = false ∧
      decodeStr [1, 255] = [] := by
  constructor
  · decide
  · decide

/-- **C6 (amended).** When the length-prefixed unpacked bytes of an
encoded cell sequence are not valid UTF-8, decoding silently returns the
empty string (Rust's `String::default()`), not an error. -/
theorem decodeStr_invalid_utf8 (len : ℕ) (packed : List ℕ)
    (h : utf8Valid (((packed.map unpackCell).flatten).take len) = false) :
    decodeStr (len :: packed) = [] := by
  simp only [decodeStr, h]
  rfl

/-- Witness for the amended C6 at the cells `[1, 255]`. -/
theorem decodeStr_invalid_utf8_witness :
    utf8Valid (((([255] : List ℕ).map unpackCell).flatten).take 1) = false ∧
      decodeStr [1, 255] = [] :=
  ⟨by decide, decodeStr_invalid_utf8 1 [255] (by decide)⟩

/-! ## C7: request parsing -/

/-- **C7 (counterexample).** The request body `["abc"]` fails integer
parsing, and `deserialize_vector`'s `.unwrap()` panics (modelled `none`):
no 4xx response is produced, refuting the no-panic claim. -/
theorem deserializeVector_panic_counterexample :
    parseBigInt ['a', 'b', 'c'] = none ∧
      deserializeVector [['a', 'b', 'c']] = none := by
  constructor
  · decide
  · decide

/-- **C7 (amended).** `deserialize_vector` panics (`none`) exactly when
some entry of the request's query vector fails to parse as an integer;
parse failures are not turned into 4xx responses. -/
theorem deserializeVector_none_iff (v : List (List Char)) :
    deserializeVector v = none ↔ ∃ s ∈ v, parseBigInt s = none := by
  induction v with
  | nil => simp [deserializeVector]
  | cons a t ih =>
    cases h1 : parseBigInt a with
    | none =>
      simp only [deserializeVector, h1]
      exact iff_of_true trivial ⟨a, by simp, h1⟩
    | some b =>
      cases h2 : deserializeVector t with
      | none =>
        simp only [deserializeVector, h1, h2]
        obtain ⟨s, hs, hpar⟩ := ih.mp h2
        exact iff_of_true trivial ⟨s, by simp [hs], hpar⟩
      | some bs =>
        simp only [deserializeVector, h1, h2]
        constructor
        · intro hcontra
          cases hcontra
        · rintro ⟨s, hs, hpar⟩
          rcases List.mem_cons.mp hs with rfl | hst
          · rw [h1] at hpar; cases hpar
          · have := ih.mpr ⟨s, hst, hpar⟩
            rw [h2] at this; cases this

/-! ## C8: refresh failure keeps the previous epoch -/

/-- **C8.** If any step of rebuilding the databases fails
(`build_databases` returns `None`), the previously published database
state remains installed unchanged; a new `DatabaseState` is published
only on full success, as a single assignment of the shared state
(src/bin/server.rs:163-178). -/
theorem refresh_preserves_dbState (app : AppState)
    (fetch : Option (List (List ℕ × ℚ) × List (List ℕ × ℚ) × List ℕ))
    (st : BuildSteps) :
    (fetch = none → updateMarketData app fetch st = app) ∧
    (buildDatabases st = none →
      (updateMarketData app fetch st).dbState = app.dbState) ∧
    (∀ s, buildDatabases st = some s →
      ∀ stocks cryptos ts, fetch = some (stocks, cryptos, ts) →
        (updateMarketData app fetch st).dbState = some s) := by
  refine ⟨?_, ?_, ?_⟩
  · intro h
    rw [h]
    rfl
  · intro h
    cases fetch with
    | none => rfl
    | some f =>
      obtain ⟨stocks, cryptos, ts⟩ := f
      simp [updateMarketData, applyBuildResult, h]
  · intro s hs stocks cryptos ts hfetch
    rw [hfetch]
    simp [updateMarketData, applyBuildResult, hs]

/-- Witness for C8: a build whose embedder initialisation fails leaves
the previously published `dbState` untouched. -/
theorem refresh_preserves_dbState_witness :
    buildDatabases ⟨none, none, none, none, false, (0, []), (0, [])⟩ = none ∧
      (updateMarketData ⟨[], [], [], none⟩ (some ([], [], [7]))
        ⟨none, none, none, none, false, (0, []), (0, [])⟩).dbState =
      (⟨[], [], [], none⟩ : AppState).dbState :=
  ⟨rfl, (refresh_preserves_dbState ⟨[], [], [], none⟩ (some ([], [], [7]))
    ⟨none, none, none, none, false, (0, []), (0, [])⟩).2.1 rfl⟩

/-! ## C9: `adjust_embedding` -/

/-- **C9.** `adjust_embedding(v, m)` returns a vector of length exactly
`m` whose entry `j` equals `v[j]` for `j < min(len(v), m)` and `0` for
`min(len(v), m) ≤ j < m` (src/client.rs:36-48, src/network.rs:275-287). -/
theorem adjustEmbedding_spec (v : List ℤ) (m : ℕ) :
    (adjustEmbedding v m).length = m ∧
    ∀ j, j < m → (adjustEmbedding v m).getD j 0 =
      if j < min v.length m then v.getD j 0 else 0 := by
  unfold adjustEmbedding
  by_cases h1 : v.length = m
  · rw [if_pos h1]
    refine ⟨h1, fun j hj => ?_⟩
    rw [if_pos (by omega)]
  · by_cases h2 : v.length < m
    · rw [if_neg h1, if_pos h2]
      constructor
      · simp
        omega
      · intro j hj
        by_cases hjv : j < v.length
        · rw [if_pos (by omega)]
          rw [List.getD_eq_getElem _ _ (by simp; omega),
            List.getD_eq_getElem _ _ hjv]
          exact List.getElem_append_left hjv
        · rw [if_neg (by omega)]
          rw [List.getD_eq_getElem _ _ (by simp; omega)]
          rw [List.getElem_append_right (by omega)]
          exact List.getElem_replicate 0 _
    · have h3 : m < v.length := by omega
      rw [if_neg h1, if_neg h2]
      constructor
      · simp
        omega
      · intro j hj
        rw [if_pos (by omega)]
        rw [List.getD_eq_getElem _ _ (by simp [Nat.lt_min]; omega),
          List.getD_eq_getElem _ _ (by omega)]
        exact List.getElem_take v

/-- Witness for C9 at `v = [1, 2, 3]`, `m = 2`. -/
theorem adjustEmbedding_spec_witness :
    (adjustEmbedding [1, 2, 3] 2).length = 2 ∧
      (adjustEmbedding [1, 2, 3] 2).getD 0 0 =
        if 0 < min ([1, 2, 3] : List ℤ).length 2 then ([1, 2, 3] : List ℤ).getD 0 0 else 0 :=
  ⟨(adjustEmbedding_spec [1, 2, 3] 2).1,
    (adjustEmbedding_spec [1, 2, 3] 2).2 0 (by decide)⟩

/-! ## C10: `build_from_strings` embeds at most nine texts -/

/-- **C10.** `EmbeddingDatabase::build_from_strings` embeds at most the
first nine input texts (`texts.iter().take(9)`, src/database.rs:40): two
input lists agreeing on their first nine elements produce identical
database contents, side length, and hints (for the same `setup`
randomness), so texts at index 9 or beyond never affect the result. -/
theorem buildFromStrings_take9 (embed : List ℕ → Option (List ℚ))
    (setupF : List ℕ → ℕ × List (List ℕ)) (plainMod : ℕ)
    (t₁ t₂ : List (List ℕ)) (h : t₁.take 9 = t₂.take 9) :
    buildFromStrings embed setupF plainMod t₁ =
      buildFromStrings embed setupF plainMod t₂ := by
  unfold buildFromStrings
  rw [h]

/-- Witness for C10: ten texts versus the same nine followed by a
different tenth. -/
theorem buildFromStrings_take9_witness :
    (List.replicate 10 [97]).take 9 = (List.replicate 9 [97] ++ [[98]]).take 9 ∧
      buildFromStrings (fun _ => some []) (fun d => (0, [d])) 131072
          (List.replicate 10 [97]) =
        buildFromStrings (fun _ => some []) (fun d => (0, [d])) 131072
          (List.replicate 9 [97] ++ [[98]]) :=
  ⟨by decide,
    buildFromStrings_take9 (fun _ => some []) (fun d => (0, [d])) 131072
      (List.replicate 10 [97]) (List.replicate 9 [97] ++ [[98]]) (by decide)⟩

end Tiptoe
